import Mathlib

/-!
Shallow embedding of the fractal rendering engine of `src/fractals.rs`
(repository `fractal-viz`), together with theorems settling the frozen
claims about it.

Modelling conventions:
* `f64` values are modelled as exact rationals (`ℚ`); the two transcendental
  primitives the renderer calls (`f64::sin`, `f64::log` with base 10) are
  parameters of the model, bundled in `FloatOps`.
* `u32`/`i32` loop counters and pixel coordinates are `ℕ` (the renderer is
  only ever called with non-negative dimensions, and no arithmetic in the
  modelled paths wraps).
* the pixel buffer is a `List ℕ` of bytes; a Rust panic (a failed `assert!`
  or an out-of-bounds slice in `copy_from_slice`) is an `Except.error`
  carrying which panic fired, so a call that refuses to run is
  distinguished from one that writes.
-/

namespace FractalViz

/-- The two `f64` transcendental primitives used by `fractals.rs`
(`sin`, and `log` with base 10), abstracted as parameters of the model. -/
structure FloatOps where
  sin : ℚ → ℚ
  log10 : ℚ → ℚ

/-- Rust saturating cast `as u8` from `f64`: truncate toward zero and clamp
to `[0, 255]` (for values `< 0` the result is `0`, so floor and truncation
agree on every clamped value). -/
def f64ToU8 (q : ℚ) : ℕ := min 255 (max 0 ⌊q⌋).toNat

/-- Rust `%` of an `f64` by `1.0`: remainder after truncation toward zero. -/
def fmod1 (q : ℚ) : ℚ := q - (if 0 ≤ q then (⌊q⌋ : ℚ) else -(⌊-q⌋ : ℚ))

/-- `Colour` of `fractals.rs` (three `u8` channels). -/
structure Colour where
  red : ℕ
  green : ℕ
  blue : ℕ
deriving DecidableEq

/-- `Colour::lerp`: linear interpolation between two colours, each channel
cast back to `u8`. -/
def Colour.lerp (start stop : Colour) (t : ℚ) : Colour :=
  { red := f64ToU8 ((start.red : ℚ) * (1 - t) + (stop.red : ℚ) * t)
    green := f64ToU8 ((start.green : ℚ) * (1 - t) + (stop.green : ℚ) * t)
    blue := f64ToU8 ((start.blue : ℚ) * (1 - t) + (stop.blue : ℚ) * t) }

/-- The sin-based palette both kernels apply to the (possibly fractional)
iteration count (`fractals.rs` lines 71-77 and 141-147). -/
def palette (ops : FloatOps) (iteration : ℚ) : Colour :=
  let r := f64ToU8 (ops.sin (0.0730 * iteration) * 255)
  let g := f64ToU8 (ops.sin (0.0460 * iteration) * 255)
  let b := f64ToU8 (ops.sin (0.0900 * iteration) * 255)
  let r2 := f64ToU8 (ops.sin (0.0730 * (iteration + 1)) * 255)
  let g2 := f64ToU8 (ops.sin (0.0460 * (iteration + 1)) * 255)
  let b2 := f64ToU8 (ops.sin (0.0900 * (iteration + 1)) * 255)
  Colour.lerp ⟨r, g, b⟩ ⟨r2, g2, b2⟩ (fmod1 iteration)

/-- Loop state of the Mandelbrot kernel (`x`, `y`, `x2`, `y2`, `iteration`
of `fractals.rs` lines 97-101). -/
structure MandelState where
  x : ℚ
  y : ℚ
  x2 : ℚ
  y2 : ℚ
  iteration : ℕ
deriving DecidableEq

/-- The Mandelbrot `while` loop (`fractals.rs` lines 102-108):
`while x2 + y2 <= r && iteration < max_iterations`, with the remaining
iteration budget as fuel. -/
def mandelSteps (real imaginary r : ℚ) : ℕ → MandelState → MandelState
  | 0, s => s
  | fuel + 1, s =>
    if s.x2 + s.y2 ≤ r then
      let y := 2 * s.x * s.y + imaginary
      let x := s.x2 - s.y2 + real
      mandelSteps real imaginary r fuel ⟨x, y, x * x, y * y, s.iteration + 1⟩
    else s

/-- State of the Mandelbrot loop at exit, started from
`x = y = x2 = y2 = 0`, `iteration = 0` with fuel `max_iterations`. -/
def mandelFinal (real imaginary r : ℚ) (max_iterations : ℕ) : MandelState :=
  mandelSteps real imaginary r max_iterations ⟨0, 0, 0, 0, 0⟩

/-- The (possibly fractional) Mandelbrot iteration value of one pixel:
the raw count, with the smooth-colouring correction of `fractals.rs`
lines 109-122 applied when the loop exited before `max_iterations`. -/
def mandelValue (ops : FloatOps) (max_iterations : ℕ)
    (escape_radius real imaginary : ℚ) : ℚ :=
  let s := mandelFinal real imaginary (escape_radius * escape_radius) max_iterations
  if (s.iteration : ℚ) < (max_iterations : ℚ) then
    (s.iteration : ℚ) + 1 -
      ops.log10 (ops.log10 (s.x * s.x + s.y * s.y) / 2 / ops.log10 2) / ops.log10 2
  else (s.iteration : ℚ)

/-- Loop state of the Julia kernel (`real`, `imaginary`, `iteration` of
`fractals.rs` lines 48-51). -/
structure JuliaState where
  real : ℚ
  imaginary : ℚ
  iteration : ℕ
deriving DecidableEq

/-- The Julia `while` loop (`fractals.rs` lines 52-57):
`while real * real + imaginary * imaginary < r && iteration < max_iterations`,
with the remaining iteration budget as fuel. -/
def juliaSteps (cx cy r : ℚ) : ℕ → JuliaState → JuliaState
  | 0, s => s
  | fuel + 1, s =>
    if s.real * s.real + s.imaginary * s.imaginary < r then
      let xtemp := s.real * s.real - s.imaginary * s.imaginary + cx
      juliaSteps cx cy r fuel
        ⟨xtemp, 2 * s.real * s.imaginary + cy, s.iteration + 1⟩
    else s

/-- State of the Julia loop at exit, started from the pixel's mapped plane
coordinate with `iteration = 0` and fuel `max_iterations`. -/
def juliaFinal (cx cy r real imaginary : ℚ) (max_iterations : ℕ) : JuliaState :=
  juliaSteps cx cy r max_iterations ⟨real, imaginary, 0⟩

/-- The viewport mapping applied to each axis by both kernels
(`fractals.rs` lines 48-49 and 94-95): `(pixel - dimension / 2)` in integer
arithmetic, scaled by `zoom`, shifted by the offset. -/
def pixelToPlane (p d : ℕ) (zoom off : ℚ) : ℚ :=
  (((p : ℤ) - ((d / 2 : ℕ) : ℤ) : ℤ) : ℚ) * zoom + off

/-- Colour the Mandelbrot kernel computes at a plane coordinate. -/
def mandelColourPlane (ops : FloatOps) (max_iterations : ℕ)
    (escape_radius real imaginary : ℚ) : Colour :=
  palette ops (mandelValue ops max_iterations escape_radius real imaginary)

/-- Colour the Julia kernel computes at a plane coordinate: the palette at
the raw integer count (the smooth-colouring block is commented out in
`generate_julia`). -/
def juliaColourPlane (ops : FloatOps) (max_iterations : ℕ)
    (escape_radius cx cy real imaginary : ℚ) : Colour :=
  palette ops
    ((juliaFinal cx cy (escape_radius * escape_radius) real imaginary
        max_iterations).iteration : ℚ)

/-- Which Rust panic fired: a failed `assert!`, or an out-of-bounds slice
index in `pixels[pixel_idx..pixel_idx+4]`. -/
inductive PanicKind where
  | assertFailed
  | sliceOutOfBounds
deriving DecidableEq

/-- `pixels[pixel_idx..pixel_idx+4].copy_from_slice(&[b0, b1, b2, b3])`:
writes 4 consecutive bytes, panicking when the slice exceeds the buffer. -/
def copyFromSlice4 (pixels : List ℕ) (idx b0 b1 b2 b3 : ℕ) :
    Except PanicKind (List ℕ) :=
  if idx + 4 ≤ pixels.length then
    .ok ((((pixels.set idx b0).set (idx + 1) b1).set (idx + 2) b2).set (idx + 3) b3)
  else .error .sliceOutOfBounds

/-- The four bytes written for a pixel: R, G, B and the constant alpha 255. -/
def pixelBytes (c : Colour) : List ℕ := [c.red, c.green, c.blue, 255]

/-- One pixel store of either kernel: colour plus alpha 255 at byte offset
`(y_pixel * width + x_pixel) * 4`. -/
def writePixel (w y x : ℕ) (c : Colour) (pixels : List ℕ) :
    Except PanicKind (List ℕ) :=
  copyFromSlice4 pixels ((y * w + x) * 4) c.red c.green c.blue 255

/-- The inner pixel loop (`for x_pixel in 0..width`), over an explicit list
of column indices. -/
def renderRow (colour : ℕ → ℕ → Colour) (w y : ℕ) :
    List ℕ → List ℕ → Except PanicKind (List ℕ)
  | [], pixels => .ok pixels
  | x :: xs, pixels =>
    match writePixel w y x (colour x y) pixels with
    | .error e => .error e
    | .ok pixels => renderRow colour w y xs pixels

/-- The outer pixel loop (`for y_pixel in 0..height`), over an explicit list
of row indices. -/
def renderRows (colour : ℕ → ℕ → Colour) (w : ℕ) :
    List ℕ → List ℕ → Except PanicKind (List ℕ)
  | [], pixels => .ok pixels
  | y :: ys, pixels =>
    match renderRow colour w y (List.range w) pixels with
    | .error e => .error e
    | .ok pixels => renderRows colour w ys pixels

/-- The double pixel loop shared (textually duplicated) by
`generate_mandelbrot` and `generate_julia`, abstracted over the per-pixel
colour. -/
def render (colour : ℕ → ℕ → Colour) (w h : ℕ) (pixels : List ℕ) :
    Except PanicKind (List ℕ) :=
  renderRows colour w (List.range h) pixels

/-- `generate_mandelbrot` (`fractals.rs` lines 87-158): no precondition
check, then the double pixel loop. -/
def generate_mandelbrot (ops : FloatOps) (pixels : List ℕ) (width height : ℕ)
    (zoom offset_x offset_y escape_radius : ℚ) (max_iterations : ℕ) :
    Except PanicKind (List ℕ) :=
  render
    (fun x y => mandelColourPlane ops max_iterations escape_radius
      (pixelToPlane x width zoom offset_x) (pixelToPlane y height zoom offset_y))
    width height pixels

/-- `generate_julia` (`fractals.rs` lines 41-84): the
`assert!(escape_radius > 0.0)` guard, then the double pixel loop. -/
def generate_julia (ops : FloatOps) (pixels : List ℕ) (width height : ℕ)
    (zoom offset_x offset_y escape_radius cx cy : ℚ) (max_iterations : ℕ) :
    Except PanicKind (List ℕ) :=
  if escape_radius > 0 then
    render
      (fun x y => juliaColourPlane ops max_iterations escape_radius cx cy
        (pixelToPlane x width zoom offset_x) (pixelToPlane y height zoom offset_y))
      width height pixels
  else .error .assertFailed

/-- The `Fractals` enum of `fractals.rs` (lines 25-29): exactly the two
variants the engine defines. -/
inductive Fractals where
  | Mandelbrot (max_iterations : ℕ) (escape_radius : ℚ)
  | Julia (max_iterations : ℕ) (escape_radius : ℚ) (c : ℚ × ℚ)
deriving DecidableEq

/-- `Fractals::draw` (`fractals.rs` lines 33-38): dispatch to the variant's
generator. -/
def Fractals.draw (ops : FloatOps) (f : Fractals) (pixels : List ℕ)
    (width height : ℕ) (zoom offset_x offset_y : ℚ) :
    Except PanicKind (List ℕ) :=
  match f with
  | .Mandelbrot mi er =>
    generate_mandelbrot ops pixels width height zoom offset_x offset_y er mi
  | .Julia mi er c =>
    generate_julia ops pixels width height zoom offset_x offset_y er c.1 c.2 mi

/-- Discriminator: is the variant `Mandelbrot`? -/
def Fractals.isMandelbrot : Fractals → Bool
  | .Mandelbrot _ _ => true
  | _ => false

/-- Discriminator: is the variant `Julia`? -/
def Fractals.isJulia : Fractals → Bool
  | .Julia _ _ _ => true
  | _ => false

/-- The colour `draw` stores for pixel `(x, y)`, per variant. -/
def Fractals.colourAt (ops : FloatOps) (f : Fractals) (zoom ox oy : ℚ)
    (w h x y : ℕ) : Colour :=
  match f with
  | .Mandelbrot mi er =>
    mandelColourPlane ops mi er (pixelToPlane x w zoom ox) (pixelToPlane y h zoom oy)
  | .Julia mi er c =>
    juliaColourPlane ops mi er c.1 c.2 (pixelToPlane x w zoom ox) (pixelToPlane y h zoom oy)

/-- Specification-side iteration map of the spec's kernels: the complex
quadratic map `z ← z² + c` written on (re, im) pairs, to be compared with
the decomposed loop bodies of the source. -/
def stepZ (c z : ℚ × ℚ) : ℚ × ℚ :=
  (z.1 * z.1 - z.2 * z.2 + c.1, 2 * z.1 * z.2 + c.2)

/-- Squared modulus `|z|²` of an (re, im) pair. -/
def normSq (z : ℚ × ℚ) : ℚ := z.1 * z.1 + z.2 * z.2

/-- The orbit of `z0` under `z ← z² + c`. -/
def orbit (c z0 : ℚ × ℚ) (n : ℕ) : ℚ × ℚ := (stepZ c)^[n] z0

/-- The Mandelbrot loop state reached after `k` iterations: the `k`-th
orbit point of `(0, 0)`, with `x2`, `y2` tracking the squares. -/
def mstate (c : ℚ × ℚ) (k : ℕ) : MandelState :=
  ⟨(orbit c (0, 0) k).1, (orbit c (0, 0) k).2,
   (orbit c (0, 0) k).1 * (orbit c (0, 0) k).1,
   (orbit c (0, 0) k).2 * (orbit c (0, 0) k).2, k⟩

/-- The Julia loop state reached after `k` iterations: the `k`-th orbit
point of the pixel's plane coordinate. -/
def jstate (c z0 : ℚ × ℚ) (k : ℕ) : JuliaState :=
  ⟨(orbit c z0 k).1, (orbit c z0 k).2, k⟩

/-- Concrete stand-in for the transcendental primitives, used to evaluate
the model on closed inputs. -/
def ops₀ : FloatOps := ⟨fun _ => 0, fun _ => 0⟩

/-! ## Loop invariants of the two kernels -/

lemma orbit_zero (c z0 : ℚ × ℚ) : orbit c z0 0 = z0 := rfl

lemma orbit_succ (c z0 : ℚ × ℚ) (n : ℕ) :
    orbit c z0 (n + 1) = stepZ c (orbit c z0 n) :=
  Function.iterate_succ_apply' (stepZ c) n z0

lemma mstate_zero (c : ℚ × ℚ) : mstate c 0 = ⟨0, 0, 0, 0, 0⟩ := by
  simp [mstate, orbit_zero]

lemma mandelSteps_zero (real imaginary r : ℚ) (s : MandelState) :
    mandelSteps real imaginary r 0 s = s := rfl

lemma mandelSteps_succ (real imaginary r : ℚ) (fuel : ℕ) (s : MandelState) :
    mandelSteps real imaginary r (fuel + 1) s =
      if s.x2 + s.y2 ≤ r then
        mandelSteps real imaginary r fuel
          ⟨s.x2 - s.y2 + real, 2 * s.x * s.y + imaginary,
           (s.x2 - s.y2 + real) * (s.x2 - s.y2 + real),
           (2 * s.x * s.y + imaginary) * (2 * s.x * s.y + imaginary),
           s.iteration + 1⟩
      else s := rfl

lemma juliaSteps_succ (cx cy r : ℚ) (fuel : ℕ) (s : JuliaState) :
    juliaSteps cx cy r (fuel + 1) s =
      if s.real * s.real + s.imaginary * s.imaginary < r then
        juliaSteps cx cy r fuel
          ⟨s.real * s.real - s.imaginary * s.imaginary + cx,
           2 * s.real * s.imaginary + cy, s.iteration + 1⟩
      else s := rfl

lemma mandelSteps_mstate (c : ℚ × ℚ) (r : ℚ) :
    ∀ fuel k, ∃ n, k ≤ n ∧ n ≤ k + fuel ∧
      mandelSteps c.1 c.2 r fuel (mstate c k) = mstate c n ∧
      (∀ m, k ≤ m → m < n → normSq (orbit c (0, 0) m) ≤ r) ∧
      (n < k + fuel → r < normSq (orbit c (0, 0) n)) := by
  intro fuel
  induction fuel with
  | zero =>
    intro k
    exact ⟨k, le_refl k, by omega, rfl, by omega, by omega⟩
  | succ fuel ih =>
    intro k
    have hsq : (mstate c k).x2 + (mstate c k).y2 = normSq (orbit c (0, 0) k) := rfl
    by_cases hesc : normSq (orbit c (0, 0) k) ≤ r
    · obtain ⟨n, h1, h2, h3, h4, h5⟩ := ih (k + 1)
      have hstep :
          (⟨(mstate c k).x2 - (mstate c k).y2 + c.1,
            2 * (mstate c k).x * (mstate c k).y + c.2,
            ((mstate c k).x2 - (mstate c k).y2 + c.1) *
              ((mstate c k).x2 - (mstate c k).y2 + c.1),
            (2 * (mstate c k).x * (mstate c k).y + c.2) *
              (2 * (mstate c k).x * (mstate c k).y + c.2),
            (mstate c k).iteration + 1⟩ : MandelState) = mstate c (k + 1) := by
        simp [mstate, orbit_succ, stepZ]
      refine ⟨n, by omega, by omega, ?_, ?_, ?_⟩
      · rw [mandelSteps_succ, if_pos (hsq ▸ hesc), hstep]
        exact h3
      · intro m hkm hmn
        rcases eq_or_lt_of_le hkm with h | h
        · exact h ▸ hesc
        · exact h4 m h hmn
      · intro hn
        exact h5 (by omega)
    · refine ⟨k, le_refl k, by omega, ?_, by omega, fun _ => lt_of_not_le hesc⟩
      rw [mandelSteps_succ, if_neg (by rw [hsq]; exact hesc)]

lemma mandelFinal_spec (real imaginary r : ℚ) (mi : ℕ) :
    ∃ n, n ≤ mi ∧
      mandelFinal real imaginary r mi = mstate (real, imaginary) n ∧
      (∀ m, m < n → normSq (orbit (real, imaginary) (0, 0) m) ≤ r) ∧
      (n < mi → r < normSq (orbit (real, imaginary) (0, 0) n)) := by
  obtain ⟨n, _, h2, h3, h4, h5⟩ := mandelSteps_mstate (real, imaginary) r mi 0
  refine ⟨n, by omega, ?_, fun m hm => h4 m (Nat.zero_le m) hm, fun h => h5 (by omega)⟩
  rw [mandelFinal, ← mstate_zero (real, imaginary)]
  exact h3

lemma juliaSteps_jstate (c z0 : ℚ × ℚ) (r : ℚ) :
    ∀ fuel k, ∃ n, k ≤ n ∧ n ≤ k + fuel ∧
      juliaSteps c.1 c.2 r fuel (jstate c z0 k) = jstate c z0 n ∧
      (∀ m, k ≤ m → m < n → normSq (orbit c z0 m) < r) ∧
      (n < k + fuel → r ≤ normSq (orbit c z0 n)) := by
  intro fuel
  induction fuel with
  | zero =>
    intro k
    exact ⟨k, le_refl k, by omega, rfl, by omega, by omega⟩
  | succ fuel ih =>
    intro k
    have hsq : (jstate c z0 k).real * (jstate c z0 k).real +
        (jstate c z0 k).imaginary * (jstate c z0 k).imaginary =
        normSq (orbit c z0 k) := rfl
    by_cases hesc : normSq (orbit c z0 k) < r
    · obtain ⟨n, h1, h2, h3, h4, h5⟩ := ih (k + 1)
      have hstep :
          (⟨(jstate c z0 k).real * (jstate c z0 k).real -
              (jstate c z0 k).imaginary * (jstate c z0 k).imaginary + c.1,
            2 * (jstate c z0 k).real * (jstate c z0 k).imaginary + c.2,
            (jstate c z0 k).iteration + 1⟩ : JuliaState) = jstate c z0 (k + 1) := by
        simp [jstate, orbit_succ, stepZ]
      refine ⟨n, by omega, by omega, ?_, ?_, ?_⟩
      · rw [juliaSteps_succ, if_pos (hsq ▸ hesc), hstep]
        exact h3
      · intro m hkm hmn
        rcases eq_or_lt_of_le hkm with h | h
        · exact h ▸ hesc
        · exact h4 m h hmn
      · intro hn
        exact h5 (by omega)
    · refine ⟨k, le_refl k, by omega, ?_, by omega, fun _ => le_of_not_lt hesc⟩
      rw [juliaSteps_succ, if_neg (by rw [hsq]; exact hesc)]

lemma juliaFinal_spec (cx cy r real imaginary : ℚ) (mi : ℕ) :
    ∃ n, n ≤ mi ∧
      juliaFinal cx cy r real imaginary mi = jstate (cx, cy) (real, imaginary) n ∧
      (∀ m, m < n → normSq (orbit (cx, cy) (real, imaginary) m) < r) ∧
      (n < mi → r ≤ normSq (orbit (cx, cy) (real, imaginary) n)) := by
  obtain ⟨n, _, h2, h3, h4, h5⟩ := juliaSteps_jstate (cx, cy) (real, imaginary) r mi 0
  refine ⟨n, by omega, ?_, fun m hm => h4 m (Nat.zero_le m) hm, fun h => h5 (by omega)⟩
  rw [juliaFinal]
  exact h3

/-! ## Buffer layout of the double pixel loop -/

lemma renderRow_nil (colour : ℕ → ℕ → Colour) (w y : ℕ) (pixels : List ℕ) :
    renderRow colour w y [] pixels = .ok pixels := rfl

lemma renderRow_cons (colour : ℕ → ℕ → Colour) (w y x : ℕ) (xs : List ℕ)
    (pixels : List ℕ) :
    renderRow colour w y (x :: xs) pixels =
      match writePixel w y x (colour x y) pixels with
      | .error e => .error e
      | .ok pixels => renderRow colour w y xs pixels := rfl

lemma renderRows_cons (colour : ℕ → ℕ → Colour) (w y : ℕ) (ys : List ℕ)
    (pixels : List ℕ) :
    renderRows colour w (y :: ys) pixels =
      match renderRow colour w y (List.range w) pixels with
      | .error e => .error e
      | .ok pixels => renderRows colour w ys pixels := rfl

lemma set4_getElem? (l : List ℕ) (i b0 b1 b2 b3 : ℕ) (h : i + 4 ≤ l.length)
    (j : ℕ) :
    ((((l.set i b0).set (i + 1) b1).set (i + 2) b2).set (i + 3) b3)[j]? =
      if j = i then some b0 else if j = i + 1 then some b1
      else if j = i + 2 then some b2 else if j = i + 3 then some b3
      else l[j]? := by
  simp only [List.getElem?_set, List.length_set]
  split_ifs <;> first | rfl | omega

lemma pixelIndex_decode {w x y q : ℕ} (hx : x < w) :
    q = y * w + x ↔ (q / w = y ∧ q % w = x) := by
  have hw : 0 < w := lt_of_le_of_lt (Nat.zero_le x) hx
  constructor
  · rintro rfl
    refine ⟨?_, ?_⟩
    · rw [add_comm (y * w) x, Nat.add_mul_div_right x y hw, Nat.div_eq_of_lt hx,
        Nat.zero_add]
    · rw [add_comm (y * w) x, Nat.add_mul_mod_self_right, Nat.mod_eq_of_lt hx]
  · rintro ⟨h1, h2⟩
    have hd := Nat.div_add_mod q w
    rw [h1, h2, mul_comm w y] at hd
    omega

lemma writePixel_spec (w y x : ℕ) (c : Colour) (pixels : List ℕ) (hx : x < w)
    (hb : (y * w + x) * 4 + 4 ≤ pixels.length) :
    ∃ out, writePixel w y x c pixels = .ok out ∧ out.length = pixels.length ∧
      ∀ j, out[j]? = if j / 4 / w = y ∧ j / 4 % w = x
        then (pixelBytes c)[j % 4]? else pixels[j]? := by
  have hok : writePixel w y x c pixels =
      .ok ((((pixels.set ((y * w + x) * 4) c.red).set ((y * w + x) * 4 + 1)
        c.green).set ((y * w + x) * 4 + 2) c.blue).set ((y * w + x) * 4 + 3) 255) := by
    rw [writePixel, copyFromSlice4, if_pos hb]
  refine ⟨_, hok, by simp [List.length_set], ?_⟩
  intro j
  rw [set4_getElem? pixels ((y * w + x) * 4) c.red c.green c.blue 255 hb j]
  by_cases hcond : j / 4 / w = y ∧ j / 4 % w = x
  · have hq : j / 4 = y * w + x := (pixelIndex_decode hx).mpr hcond
    rw [if_pos hcond]
    have hk : j % 4 = 0 ∨ j % 4 = 1 ∨ j % 4 = 2 ∨ j % 4 = 3 := by omega
    rcases hk with hk | hk | hk | hk
    · rw [if_pos (by omega : j = (y * w + x) * 4), hk]; rfl
    · rw [if_neg (by omega : ¬j = (y * w + x) * 4),
        if_pos (by omega : j = (y * w + x) * 4 + 1), hk]; rfl
    · rw [if_neg (by omega : ¬j = (y * w + x) * 4),
        if_neg (by omega : ¬j = (y * w + x) * 4 + 1),
        if_pos (by omega : j = (y * w + x) * 4 + 2), hk]; rfl
    · rw [if_neg (by omega : ¬j = (y * w + x) * 4),
        if_neg (by omega : ¬j = (y * w + x) * 4 + 1),
        if_neg (by omega : ¬j = (y * w + x) * 4 + 2),
        if_pos (by omega : j = (y * w + x) * 4 + 3), hk]; rfl
  · have hne : j / 4 ≠ y * w + x := fun h => hcond ((pixelIndex_decode hx).mp h)
    rw [if_neg hcond, if_neg (by omega : ¬j = (y * w + x) * 4),
      if_neg (by omega : ¬j = (y * w + x) * 4 + 1),
      if_neg (by omega : ¬j = (y * w + x) * 4 + 2),
      if_neg (by omega : ¬j = (y * w + x) * 4 + 3)]

lemma renderRow_spec (colour : ℕ → ℕ → Colour) (w y : ℕ) :
    ∀ (xs : List ℕ) (pixels : List ℕ), (∀ x ∈ xs, x < w) →
      (∀ x ∈ xs, (y * w + x) * 4 + 4 ≤ pixels.length) →
      ∃ out, renderRow colour w y xs pixels = .ok out ∧
        out.length = pixels.length ∧
        ∀ j, out[j]? = if j / 4 / w = y ∧ j / 4 % w ∈ xs
          then (pixelBytes (colour (j / 4 % w) y))[j % 4]? else pixels[j]? := by
  intro xs
  induction xs with
  | nil =>
    intro pixels _ _
    exact ⟨pixels, rfl, rfl, fun j => by simp⟩
  | cons x xs ih =>
    intro pixels hxs hb
    obtain ⟨out1, e1, len1, char1⟩ := writePixel_spec w y x (colour x y) pixels
      (hxs x (List.mem_cons_self x xs)) (hb x (List.mem_cons_self x xs))
    obtain ⟨out2, e2, len2, char2⟩ := ih out1
      (fun z hz => hxs z (List.mem_cons_of_mem x hz))
      (fun z hz => by rw [len1]; exact hb z (List.mem_cons_of_mem x hz))
    refine ⟨out2, by rw [renderRow_cons, e1]; exact e2, by rw [len2, len1], ?_⟩
    intro j
    rw [char2 j, char1 j]
    by_cases hc2 : j / 4 / w = y ∧ j / 4 % w ∈ xs
    · rw [if_pos hc2, if_pos ⟨hc2.1, List.mem_cons_of_mem x hc2.2⟩]
    · rw [if_neg hc2]
      by_cases hc1 : j / 4 / w = y ∧ j / 4 % w = x
      · rw [if_pos hc1, if_pos ⟨hc1.1, by rw [hc1.2]; exact List.mem_cons_self x xs⟩,
          hc1.2]
      · have hcT : ¬(j / 4 / w = y ∧ j / 4 % w ∈ x :: xs) := by
          rintro ⟨hy, hm⟩
          rcases List.mem_cons.mp hm with h | h
          · exact hc1 ⟨hy, h⟩
          · exact hc2 ⟨hy, h⟩
        rw [if_neg hc1, if_neg hcT]

lemma renderRows_spec (colour : ℕ → ℕ → Colour) (w : ℕ) :
    ∀ (ys : List ℕ) (pixels : List ℕ),
      (∀ y ∈ ys, (y + 1) * w * 4 ≤ pixels.length) →
      ∃ out, renderRows colour w ys pixels = .ok out ∧
        out.length = pixels.length ∧
        ∀ j, out[j]? = if j / 4 / w ∈ ys ∧ j / 4 % w < w
          then (pixelBytes (colour (j / 4 % w) (j / 4 / w)))[j % 4]?
          else pixels[j]? := by
  intro ys
  induction ys with
  | nil =>
    intro pixels _
    exact ⟨pixels, rfl, rfl, fun j => by simp⟩
  | cons y ys ih =>
    intro pixels hb
    obtain ⟨out1, e1, len1, char1⟩ := renderRow_spec colour w y (List.range w) pixels
      (fun z hz => List.mem_range.mp hz)
      (fun z hz => by
        have hz' : z < w := List.mem_range.mp hz
        have hble := hb y (List.mem_cons_self y ys)
        have hyw : (y + 1) * w = y * w + w := by ring
        omega)
    obtain ⟨out2, e2, len2, char2⟩ := ih out1
      (fun z hz => by rw [len1]; exact hb z (List.mem_cons_of_mem y hz))
    refine ⟨out2, by rw [renderRows_cons, e1]; exact e2, by rw [len2, len1], ?_⟩
    intro j
    rw [char2 j, char1 j]
    by_cases hc2 : j / 4 / w ∈ ys ∧ j / 4 % w < w
    · rw [if_pos hc2, if_pos ⟨List.mem_cons_of_mem y hc2.1, hc2.2⟩]
    · rw [if_neg hc2]
      by_cases hc1 : j / 4 / w = y ∧ j / 4 % w ∈ List.range w
      · rw [if_pos hc1,
          if_pos ⟨by rw [hc1.1]; exact List.mem_cons_self y ys, List.mem_range.mp hc1.2⟩,
          hc1.1]
      · have hcT : ¬(j / 4 / w ∈ y :: ys ∧ j / 4 % w < w) := by
          rintro ⟨hm, hw⟩
          rcases List.mem_cons.mp hm with h | h
          · exact hc1 ⟨h, List.mem_range.mpr hw⟩
          · exact hc2 ⟨h, hw⟩
        rw [if_neg hc1, if_neg hcT]

lemma render_spec (colour : ℕ → ℕ → Colour) (w h : ℕ) (pixels : List ℕ)
    (hlen : pixels.length = w * h * 4) :
    ∃ out, render colour w h pixels = .ok out ∧ out.length = pixels.length ∧
      ∀ j, out[j]? = if j / 4 / w < h ∧ j / 4 % w < w
        then (pixelBytes (colour (j / 4 % w) (j / 4 / w)))[j % 4]?
        else pixels[j]? := by
  obtain ⟨out, e, len, char⟩ := renderRows_spec colour w (List.range h) pixels
    (fun y hy => by
      have hy' : y + 1 ≤ h := List.mem_range.mp hy
      have h1 : (y + 1) * w ≤ h * w := mul_le_mul_right' hy' w
      have h2 : h * w = w * h := Nat.mul_comm h w
      omega)
  refine ⟨out, e, len, ?_⟩
  intro j
  rw [char j]
  by_cases hc : j / 4 / w < h ∧ j / 4 % w < w
  · rw [if_pos ⟨List.mem_range.mpr hc.1, hc.2⟩, if_pos hc]
  · rw [if_neg (fun hm => hc ⟨List.mem_range.mp hm.1, hm.2⟩), if_neg hc]

lemma index_cond_iff (w h j : ℕ) :
    (j / 4 / w < h ∧ j / 4 % w < w) ↔ j < w * h * 4 := by
  rcases Nat.eq_zero_or_pos w with rfl | hw
  · constructor
    · rintro ⟨_, h2⟩; omega
    · intro h'; omega
  · have hd := Nat.div_add_mod (j / 4) w
    constructor
    · rintro ⟨h1, h2⟩
      have h3 : w * (j / 4 / w) + w ≤ w * h := by
        have h4 : w * (j / 4 / w + 1) ≤ w * h := mul_le_mul_left' h1 w
        have h5 : w * (j / 4 / w + 1) = w * (j / 4 / w) + w := by ring
        omega
      have hcomm : w * h = h * w := Nat.mul_comm w h
      omega
    · intro hj
      have hcomm : w * h = h * w := Nat.mul_comm w h
      refine ⟨?_, Nat.mod_lt _ hw⟩
      rw [Nat.div_lt_iff_lt_mul hw]
      omega

lemma render_congr (colour : ℕ → ℕ → Colour) (w h : ℕ) (p1 p2 : List ℕ)
    (h1 : p1.length = w * h * 4) (h2 : p2.length = w * h * 4) :
    render colour w h p1 = render colour w h p2 := by
  obtain ⟨o1, e1, l1, c1⟩ := render_spec colour w h p1 h1
  obtain ⟨o2, e2, l2, c2⟩ := render_spec colour w h p2 h2
  rw [e1, e2]
  congr 1
  apply List.ext_getElem?
  intro j
  rw [c1 j, c2 j]
  by_cases hc : j / 4 / w < h ∧ j / 4 % w < w
  · rw [if_pos hc, if_pos hc]
  · rw [if_neg hc, if_neg hc]
    have hj : ¬j < w * h * 4 := fun hj => hc ((index_cond_iff w h j).mpr hj)
    rw [List.getElem?_eq_none (by omega), List.getElem?_eq_none (by omega)]

lemma render_idem (colour : ℕ → ℕ → Colour) (w h : ℕ) (p out : List ℕ)
    (hlen : p.length = w * h * 4) (he : render colour w h p = .ok out) :
    render colour w h out = .ok out := by
  obtain ⟨o, e, l, c⟩ := render_spec colour w h p hlen
  rw [he] at e
  injection e with e
  subst e
  obtain ⟨o2, e2, l2, c2⟩ := render_spec colour w h out (by rw [l, hlen])
  rw [e2]
  congr 1
  apply List.ext_getElem?
  intro j
  rw [c2 j, c j]
  by_cases hc : j / 4 / w < h ∧ j / 4 % w < w
  · rw [if_pos hc, if_pos hc]
  · rw [if_neg hc, if_neg hc]

lemma draw_spec (ops : FloatOps) (f : Fractals) (pixels : List ℕ) (w h : ℕ)
    (zoom ox oy : ℚ) (hlen : pixels.length = w * h * 4) :
    Fractals.draw ops f pixels w h zoom ox oy ≠ .error .sliceOutOfBounds ∧
    ∀ out, Fractals.draw ops f pixels w h zoom ox oy = .ok out →
      out.length = w * h * 4 ∧
      ∀ j, out[j]? = if j / 4 / w < h ∧ j / 4 % w < w
        then (pixelBytes (f.colourAt ops zoom ox oy w h (j / 4 % w) (j / 4 / w)))[j % 4]?
        else pixels[j]? := by
  cases f with
  | Mandelbrot mi er =>
    obtain ⟨out0, e, l, c⟩ := render_spec
      (fun x y => mandelColourPlane ops mi er (pixelToPlane x w zoom ox)
        (pixelToPlane y h zoom oy)) w h pixels hlen
    have hd : Fractals.draw ops (.Mandelbrot mi er) pixels w h zoom ox oy = .ok out0 := e
    refine ⟨by rw [hd]; exact fun hcon => Except.noConfusion hcon, ?_⟩
    intro out hout
    rw [hd] at hout
    injection hout with hout
    subst hout
    exact ⟨by rw [l, hlen], c⟩
  | Julia mi er cc =>
    by_cases her : er > 0
    · obtain ⟨out0, e, l, c⟩ := render_spec
        (fun x y => juliaColourPlane ops mi er cc.1 cc.2 (pixelToPlane x w zoom ox)
          (pixelToPlane y h zoom oy)) w h pixels hlen
      have hd : Fractals.draw ops (.Julia mi er cc) pixels w h zoom ox oy = .ok out0 := by
        show generate_julia ops pixels w h zoom ox oy er cc.1 cc.2 mi = .ok out0
        rw [generate_julia, if_pos her]
        exact e
      refine ⟨by rw [hd]; exact fun hcon => Except.noConfusion hcon, ?_⟩
      intro out hout
      rw [hd] at hout
      injection hout with hout
      subst hout
      exact ⟨by rw [l, hlen], c⟩
    · have hd : Fractals.draw ops (.Julia mi er cc) pixels w h zoom ox oy =
          .error .assertFailed := by
        show generate_julia ops pixels w h zoom ox oy er cc.1 cc.2 mi = _
        rw [generate_julia, if_neg her]
      refine ⟨by rw [hd]; intro hcon; injection hcon with hcon; exact
        PanicKind.noConfusion hcon, ?_⟩
      intro out hout
      rw [hd] at hout
      exact absurd hout (fun hcon => Except.noConfusion hcon)

lemma draw_congr (ops : FloatOps) (f : Fractals) (w h : ℕ) (zoom ox oy : ℚ)
    (p1 p2 : List ℕ) (h1 : p1.length = w * h * 4) (h2 : p2.length = w * h * 4) :
    Fractals.draw ops f p1 w h zoom ox oy = Fractals.draw ops f p2 w h zoom ox oy := by
  cases f with
  | Mandelbrot mi er =>
    exact render_congr _ w h p1 p2 h1 h2
  | Julia mi er cc =>
    show generate_julia ops p1 w h zoom ox oy er cc.1 cc.2 mi =
      generate_julia ops p2 w h zoom ox oy er cc.1 cc.2 mi
    rw [generate_julia, generate_julia]
    by_cases her : er > 0
    · rw [if_pos her, if_pos her]
      exact render_congr _ w h p1 p2 h1 h2
    · rw [if_neg her, if_neg her]

lemma draw_idem (ops : FloatOps) (f : Fractals) (pixels out : List ℕ) (w h : ℕ)
    (zoom ox oy : ℚ) (hlen : pixels.length = w * h * 4)
    (he : Fractals.draw ops f pixels w h zoom ox oy = .ok out) :
    Fractals.draw ops f out w h zoom ox oy = .ok out := by
  cases f with
  | Mandelbrot mi er =>
    exact render_idem _ w h pixels out hlen he
  | Julia mi er cc =>
    by_cases her : er > 0
    · have he' : render (fun x y => juliaColourPlane ops mi er cc.1 cc.2
          (pixelToPlane x w zoom ox) (pixelToPlane y h zoom oy)) w h pixels = .ok out := by
        have hd : Fractals.draw ops (.Julia mi er cc) pixels w h zoom ox oy =
            generate_julia ops pixels w h zoom ox oy er cc.1 cc.2 mi := rfl
        rw [hd, generate_julia, if_pos her] at he
        exact he
      show generate_julia ops out w h zoom ox oy er cc.1 cc.2 mi = .ok out
      rw [generate_julia, if_pos her]
      exact render_idem _ w h pixels out hlen he'
    · have hd : Fractals.draw ops (.Julia mi er cc) pixels w h zoom ox oy =
          .error .assertFailed := by
        show generate_julia ops pixels w h zoom ox oy er cc.1 cc.2 mi = _
        rw [generate_julia, if_neg her]
      rw [hd] at he
      exact absurd he (fun hcon => Except.noConfusion hcon)

/-! ## Claims -/

/-- C1 (amended): the fractal variant type `Fractals` is a closed sum with
exactly two cases — Mandelbrot and Julia — and `draw` dispatches the
Mandelbrot variant to the Mandelbrot kernel and the Julia variant to the
Julia kernel; the engine defines no Newton variant or Newton kernel. -/
theorem C1_fractals_two_variants :
    (∀ f : Fractals, f.isMandelbrot = true ∨ f.isJulia = true) ∧
    (∀ (ops : FloatOps) (pixels : List ℕ) (w h : ℕ) (zoom ox oy er : ℚ) (mi : ℕ),
      Fractals.draw ops (.Mandelbrot mi er) pixels w h zoom ox oy =
        generate_mandelbrot ops pixels w h zoom ox oy er mi) ∧
    (∀ (ops : FloatOps) (pixels : List ℕ) (w h : ℕ) (zoom ox oy er : ℚ)
      (c : ℚ × ℚ) (mi : ℕ),
      Fractals.draw ops (.Julia mi er c) pixels w h zoom ox oy =
        generate_julia ops pixels w h zoom ox oy er c.1 c.2 mi) := by
  refine ⟨?_, fun _ _ _ _ _ _ _ _ _ => rfl, fun _ _ _ _ _ _ _ _ _ _ => rfl⟩
  intro f
  cases f with
  | Mandelbrot mi er => exact Or.inl rfl
  | Julia mi er c => exact Or.inr rfl

/-- C1 counterexample: the claim's closed sum "with exactly three cases —
Mandelbrot, Julia, and Newton" is false of `fractals.rs`: no `Fractals`
value lies outside the Mandelbrot and Julia cases, so there is no Newton
variant (and no Newton kernel for `draw` to run). -/
theorem C1_no_newton_variant :
    (∃ f : Fractals, f.isMandelbrot = false ∧ f.isJulia = false) = False := by
  refine eq_false ?_
  rintro ⟨f, h1, h2⟩
  cases f with
  | Mandelbrot mi er => exact Bool.noConfusion h1
  | Julia mi er c => exact Bool.noConfusion h2

/-- C2 (amended): only the Julia variant guards `escape_radius > 0` with a
precondition check: drawing a Julia variant with non-positive escape radius
fails the `assert!` before any pixel is written, while the Mandelbrot
variant has no such check and renders even with non-positive escape
radius. -/
theorem C2_escape_radius_guard (ops : FloatOps) (pixels : List ℕ) (w h : ℕ)
    (zoom ox oy er : ℚ) (c : ℚ × ℚ) (mi : ℕ)
    (her : er ≤ 0) (hlen : pixels.length = w * h * 4) :
    Fractals.draw ops (.Julia mi er c) pixels w h zoom ox oy =
      .error .assertFailed ∧
    ∃ out, Fractals.draw ops (.Mandelbrot mi er) pixels w h zoom ox oy = .ok out := by
  constructor
  · show generate_julia ops pixels w h zoom ox oy er c.1 c.2 mi = _
    rw [generate_julia, if_neg (not_lt.mpr her)]
  · obtain ⟨out, e, _, _⟩ := render_spec
      (fun x y => mandelColourPlane ops mi er (pixelToPlane x w zoom ox)
        (pixelToPlane y h zoom oy)) w h pixels hlen
    exact ⟨out, e⟩

/-- C2 witness: with escape radius `-1` on a 1×1 buffer, the Julia draw
fails its assertion and the Mandelbrot draw runs. -/
theorem C2_escape_radius_guard_witness :
    Fractals.draw ops₀ (.Julia 1 (-1) (0, 0)) [7, 7, 7, 7] 1 1 0 0 0 =
      .error .assertFailed ∧
    ∃ out, Fractals.draw ops₀ (.Mandelbrot 1 (-1)) [7, 7, 7, 7] 1 1 0 0 0 =
      .ok out :=
  C2_escape_radius_guard ops₀ [7, 7, 7, 7] 1 1 0 0 0 (-1) (0, 0) 1
    (by norm_num) rfl

/-- C2 counterexample: the claim requires the Mandelbrot render to refuse
to run with non-positive escape_radius, but `generate_mandelbrot` has no
precondition check: with escape_radius `-1` it runs to completion and
writes the pixel. -/
theorem C2_mandelbrot_unguarded :
    Fractals.draw ops₀ (.Mandelbrot 1 (-1)) [7, 7, 7, 7] 1 1 0 0 0 =
      .ok [0, 0, 0, 255] := by
  norm_num [Fractals.draw, generate_mandelbrot, render, renderRows, renderRow,
    List.range_succ, writePixel, copyFromSlice4, mandelColourPlane, mandelValue,
    mandelFinal, mandelSteps, pixelToPlane, palette, f64ToU8, fmod1, Colour.lerp,
    pixelBytes, ops₀, List.set]

/-- C3: for a buffer of length `width * height * 4`, no write of `draw`
falls outside the buffer bounds, the buffer length is preserved, and the
colour of the pixel at column x, row y is written as the 4 consecutive
bytes (R, G, B, A) at offset `(y * width + x) * 4`. -/
theorem C3_buffer_layout (ops : FloatOps) (f : Fractals) (pixels : List ℕ)
    (w h : ℕ) (zoom ox oy : ℚ) (hlen : pixels.length = w * h * 4) :
    Fractals.draw ops f pixels w h zoom ox oy ≠ .error .sliceOutOfBounds ∧
    ∀ out, Fractals.draw ops f pixels w h zoom ox oy = .ok out →
      out.length = w * h * 4 ∧
      ∀ x y k, x < w → y < h → k < 4 →
        out[(y * w + x) * 4 + k]? =
          (pixelBytes (f.colourAt ops zoom ox oy w h x y))[k]? := by
  obtain ⟨hno, hspec⟩ := draw_spec ops f pixels w h zoom ox oy hlen
  refine ⟨hno, ?_⟩
  intro out hout
  obtain ⟨hl, hchar⟩ := hspec out hout
  refine ⟨hl, ?_⟩
  intro x y k hx hy hk
  have hj := hchar ((y * w + x) * 4 + k)
  have hq : ((y * w + x) * 4 + k) / 4 = y * w + x := by omega
  have hm : ((y * w + x) * 4 + k) % 4 = k := by omega
  rw [hq, hm] at hj
  obtain ⟨hd1, hd2⟩ := (pixelIndex_decode hx).mp (rfl : y * w + x = y * w + x)
  rw [hd1, hd2] at hj
  rw [hj, if_pos ⟨hy, hx⟩]

/-- C3 witness: the layout guarantee applied to a Mandelbrot draw into a
1×1 buffer of length 4. -/
theorem C3_buffer_layout_witness :
    Fractals.draw ops₀ (.Mandelbrot 1 2) [7, 7, 7, 7] 1 1 0 0 0 ≠
      .error .sliceOutOfBounds ∧
    ∀ out, Fractals.draw ops₀ (.Mandelbrot 1 2) [7, 7, 7, 7] 1 1 0 0 0 = .ok out →
      out.length = 1 * 1 * 4 ∧
      ∀ x y k, x < 1 → y < 1 → k < 4 →
        out[(y * 1 + x) * 4 + k]? =
          (pixelBytes ((Fractals.Mandelbrot 1 2).colourAt ops₀ 0 0 0 1 1 x y))[k]? :=
  C3_buffer_layout ops₀ (.Mandelbrot 1 2) [7, 7, 7, 7] 1 1 0 0 0 rfl

/-- C6: the viewport mapping sends the center pixel `(width / 2,
height / 2)` exactly to the offset, for every zoom and offset; and both
kernels apply the same mapping `pixelToPlane` on the column (real axis)
and on the row (imaginary axis). -/
theorem C6_viewport_center (zoom off : ℚ) (d : ℕ) :
    pixelToPlane (d / 2) d zoom off = off ∧
    (∀ (ops : FloatOps) (mi : ℕ) (er ox oy : ℚ) (w h x y : ℕ),
      (Fractals.Mandelbrot mi er).colourAt ops zoom ox oy w h x y =
        mandelColourPlane ops mi er (pixelToPlane x w zoom ox)
          (pixelToPlane y h zoom oy)) ∧
    (∀ (ops : FloatOps) (mi : ℕ) (er ox oy cx cy : ℚ) (w h x y : ℕ),
      (Fractals.Julia mi er (cx, cy)).colourAt ops zoom ox oy w h x y =
        juliaColourPlane ops mi er cx cy (pixelToPlane x w zoom ox)
          (pixelToPlane y h zoom oy)) := by
  refine ⟨?_, fun _ _ _ _ _ _ _ _ _ => rfl, fun _ _ _ _ _ _ _ _ _ _ _ => rfl⟩
  simp [pixelToPlane]

/-- C9: `draw` is deterministic (the result does not depend on the initial
buffer contents, for buffers of the right length) and idempotent (a second
draw with identical parameters into the produced buffer returns it
unchanged). -/
theorem C9_deterministic_idempotent (ops : FloatOps) (f : Fractals) (w h : ℕ)
    (zoom ox oy : ℚ) (p1 p2 : List ℕ)
    (h1 : p1.length = w * h * 4) (h2 : p2.length = w * h * 4) :
    Fractals.draw ops f p1 w h zoom ox oy = Fractals.draw ops f p2 w h zoom ox oy ∧
    ∀ out, Fractals.draw ops f p1 w h zoom ox oy = .ok out →
      Fractals.draw ops f out w h zoom ox oy = .ok out :=
  ⟨draw_congr ops f w h zoom ox oy p1 p2 h1 h2,
   fun out he => draw_idem ops f p1 out w h zoom ox oy h1 he⟩

/-- C9 witness: determinism and idempotence of a Julia draw on two distinct
1×1 buffers. -/
theorem C9_deterministic_idempotent_witness :
    Fractals.draw ops₀ (.Julia 1 2 (0, 0)) [7, 7, 7, 7] 1 1 0 0 0 =
      Fractals.draw ops₀ (.Julia 1 2 (0, 0)) [9, 9, 9, 9] 1 1 0 0 0 ∧
    ∀ out, Fractals.draw ops₀ (.Julia 1 2 (0, 0)) [7, 7, 7, 7] 1 1 0 0 0 = .ok out →
      Fractals.draw ops₀ (.Julia 1 2 (0, 0)) out 1 1 0 0 0 = .ok out :=
  C9_deterministic_idempotent ops₀ (.Julia 1 2 (0, 0)) 1 1 0 0 0
    [7, 7, 7, 7] [9, 9, 9, 9] rfl rfl

/-- C10: the fourth byte of every written pixel slot — the alpha channel —
is 255, for every variant, pixel and parameter. -/
theorem C10_alpha_channel (ops : FloatOps) (f : Fractals) (pixels : List ℕ)
    (w h x y : ℕ) (zoom ox oy : ℚ) (out : List ℕ)
    (hlen : pixels.length = w * h * 4) (hx : x < w) (hy : y < h)
    (hout : Fractals.draw ops f pixels w h zoom ox oy = .ok out) :
    out[(y * w + x) * 4 + 3]? = some 255 := by
  obtain ⟨_, hspec⟩ := draw_spec ops f pixels w h zoom ox oy hlen
  obtain ⟨_, hchar⟩ := hspec out hout
  have hj := hchar ((y * w + x) * 4 + 3)
  have hq : ((y * w + x) * 4 + 3) / 4 = y * w + x := by omega
  have hm : ((y * w + x) * 4 + 3) % 4 = 3 := by omega
  rw [hq, hm] at hj
  obtain ⟨hd1, hd2⟩ := (pixelIndex_decode hx).mp (rfl : y * w + x = y * w + x)
  rw [hd1, hd2] at hj
  rw [hj, if_pos ⟨hy, hx⟩]
  rfl

/-- C10 witness: the alpha byte of the one pixel of a 1×1 Mandelbrot
render is 255. -/
theorem C10_alpha_channel_witness :
    ([0, 0, 0, 255] : List ℕ)[(0 * 1 + 0) * 4 + 3]? = some 255 :=
  C10_alpha_channel ops₀ (.Mandelbrot 1 2) [7, 7, 7, 7] 1 1 0 0 0 0 0
    [0, 0, 0, 255] rfl Nat.one_pos Nat.one_pos
    (by norm_num [Fractals.draw, generate_mandelbrot, render, renderRows,
      renderRow, List.range_succ, writePixel, copyFromSlice4, mandelColourPlane,
      mandelValue, mandelFinal, mandelSteps, pixelToPlane, palette, f64ToU8,
      fmod1, Colour.lerp, pixelBytes, ops₀, List.set])

/-- C4: the Mandelbrot kernel starts the iterate at (0, 0), takes c to be
the pixel's mapped plane coordinate, iterates z ← z² + c with `x2`, `y2`
tracking the squared components, and stops exactly when |z|² exceeds
escape_radius² or the count reaches max_iterations. -/
theorem C4_mandelbrot_kernel (mi : ℕ) (er zoom ox oy : ℚ) (w h x y : ℕ)
    (s : MandelState)
    (hs : s = mandelFinal (pixelToPlane x w zoom ox) (pixelToPlane y h zoom oy)
      (er * er) mi) :
    s.iteration ≤ mi ∧
    (s.x, s.y) =
      (stepZ (pixelToPlane x w zoom ox, pixelToPlane y h zoom oy))^[s.iteration]
        (0, 0) ∧
    s.x2 = s.x * s.x ∧ s.y2 = s.y * s.y ∧
    (∀ m, m < s.iteration →
      normSq ((stepZ (pixelToPlane x w zoom ox, pixelToPlane y h zoom oy))^[m]
        (0, 0)) ≤ er * er) ∧
    (s.iteration < mi →
      er * er <
        normSq ((stepZ (pixelToPlane x w zoom ox, pixelToPlane y h zoom oy))^[
          s.iteration] (0, 0))) := by
  obtain ⟨n, hn, he, ht, hesc⟩ := mandelFinal_spec (pixelToPlane x w zoom ox)
    (pixelToPlane y h zoom oy) (er * er) mi
  subst hs
  rw [he]
  exact ⟨hn, Prod.mk.eta, rfl, rfl, fun m hm => ht m hm, fun hlt => hesc hlt⟩

/-- C4 witness: at c = (3, 0) (pixel (0, 0) of a 1×1 view, zoom 1,
offset (3, 0)) with escape_radius 2 and max_iterations 2 the kernel stops
after exactly one iteration in state (3, 0, 9, 0, 1). -/
theorem C4_mandelbrot_kernel_witness :
    (⟨3, 0, 9, 0, 1⟩ : MandelState).iteration ≤ 2 ∧
    ((⟨3, 0, 9, 0, 1⟩ : MandelState).x, (⟨3, 0, 9, 0, 1⟩ : MandelState).y) =
      (stepZ (pixelToPlane 0 1 1 3, pixelToPlane 0 1 1 0))^[
        (⟨3, 0, 9, 0, 1⟩ : MandelState).iteration] (0, 0) ∧
    (⟨3, 0, 9, 0, 1⟩ : MandelState).x2 =
      (⟨3, 0, 9, 0, 1⟩ : MandelState).x * (⟨3, 0, 9, 0, 1⟩ : MandelState).x ∧
    (⟨3, 0, 9, 0, 1⟩ : MandelState).y2 =
      (⟨3, 0, 9, 0, 1⟩ : MandelState).y * (⟨3, 0, 9, 0, 1⟩ : MandelState).y ∧
    (∀ m, m < (⟨3, 0, 9, 0, 1⟩ : MandelState).iteration →
      normSq ((stepZ (pixelToPlane 0 1 1 3, pixelToPlane 0 1 1 0))^[m] (0, 0)) ≤
        2 * 2) ∧
    ((⟨3, 0, 9, 0, 1⟩ : MandelState).iteration < 2 →
      2 * 2 < normSq ((stepZ (pixelToPlane 0 1 1 3, pixelToPlane 0 1 1 0))^[
        (⟨3, 0, 9, 0, 1⟩ : MandelState).iteration] (0, 0))) :=
  C4_mandelbrot_kernel 2 2 1 3 0 1 1 0 0 ⟨3, 0, 9, 0, 1⟩
    (by norm_num [mandelFinal, mandelSteps, pixelToPlane])

/-- C5 (amended): the Julia kernel iterates the same map z ← z² + c as the
Mandelbrot kernel with c the fixed constant and the iterate initialised to
the pixel's mapped plane coordinate, and terminates at max_iterations like
the Mandelbrot kernel; but its escape test is strict where the Mandelbrot
one is not: Julia continues while |z|² < escape_radius² (stopping as soon
as |z|² ≥ escape_radius²), whereas Mandelbrot continues while
|z|² ≤ escape_radius². -/
theorem C5_julia_kernel (mi : ℕ) (er zoom ox oy cx cy : ℚ) (w h x y : ℕ)
    (s : JuliaState)
    (hs : s = juliaFinal cx cy (er * er) (pixelToPlane x w zoom ox)
      (pixelToPlane y h zoom oy) mi) :
    s.iteration ≤ mi ∧
    (s.real, s.imaginary) =
      (stepZ (cx, cy))^[s.iteration]
        (pixelToPlane x w zoom ox, pixelToPlane y h zoom oy) ∧
    (∀ m, m < s.iteration →
      normSq ((stepZ (cx, cy))^[m]
        (pixelToPlane x w zoom ox, pixelToPlane y h zoom oy)) < er * er) ∧
    (s.iteration < mi →
      er * er ≤ normSq ((stepZ (cx, cy))^[s.iteration]
        (pixelToPlane x w zoom ox, pixelToPlane y h zoom oy))) := by
  obtain ⟨n, hn, he, ht, hesc⟩ := juliaFinal_spec cx cy (er * er)
    (pixelToPlane x w zoom ox) (pixelToPlane y h zoom oy) mi
  subst hs
  rw [he]
  exact ⟨hn, Prod.mk.eta, fun m hm => ht m hm, fun hlt => hesc hlt⟩

/-- C5 witness: with c = (0, 0), start (1, 0) (pixel (0, 0) of a 1×1 view,
zoom 1, offset (1, 0)), escape_radius 2 and max_iterations 3, the Julia
kernel never reaches the escape bound and runs all 3 iterations. -/
theorem C5_julia_kernel_witness :
    (⟨1, 0, 3⟩ : JuliaState).iteration ≤ 3 ∧
    ((⟨1, 0, 3⟩ : JuliaState).real, (⟨1, 0, 3⟩ : JuliaState).imaginary) =
      (stepZ (0, 0))^[(⟨1, 0, 3⟩ : JuliaState).iteration]
        (pixelToPlane 0 1 1 1, pixelToPlane 0 1 1 0) ∧
    (∀ m, m < (⟨1, 0, 3⟩ : JuliaState).iteration →
      normSq ((stepZ (0, 0))^[m] (pixelToPlane 0 1 1 1, pixelToPlane 0 1 1 0)) <
        2 * 2) ∧
    ((⟨1, 0, 3⟩ : JuliaState).iteration < 3 →
      2 * 2 ≤ normSq ((stepZ (0, 0))^[(⟨1, 0, 3⟩ : JuliaState).iteration]
        (pixelToPlane 0 1 1 1, pixelToPlane 0 1 1 0))) :=
  C5_julia_kernel 3 2 1 1 0 0 0 1 1 0 0 ⟨1, 0, 3⟩
    (by norm_num [juliaFinal, juliaSteps, pixelToPlane])

/-- C5 counterexample: the escape tests are not identical. At the boundary
|z|² = escape_radius² — start (2, 0), c = (0, 0), escape_radius 2 (so
r² = 4 and |z₀|² = 4), max_iterations 3 — the Julia loop (strict `<`)
performs 0 iterations while the Mandelbrot loop (`<=`) started on the same
state performs 1. -/
theorem C5_boundary_test_differs :
    (juliaFinal 0 0 (2 * 2) 2 0 3).iteration = 0 ∧
    (mandelSteps 0 0 (2 * 2) 3 ⟨2, 0, 2 * 2, 0 * 0, 0⟩).iteration = 1 := by
  constructor
  · norm_num [juliaFinal, juliaSteps]
  · norm_num [mandelSteps]

/-- C7: the origin never escapes — the Mandelbrot kernel runs all
max_iterations there — and the plane point (2, 2) with escape_radius 2
escapes after exactly one iteration. -/
theorem C7_mandelbrot_membership (mi : ℕ) (er : ℚ) (hmi : 1 ≤ mi) (her : 2 ≤ er) :
    (mandelFinal 0 0 (er * er) mi).iteration = mi ∧
    (∀ m, normSq ((stepZ (0, 0))^[m] (0, 0)) ≤ er * er) ∧
    (mandelFinal 2 2 (2 * 2) mi).iteration = 1 ∧
    2 * 2 < normSq ((stepZ (2, 2))^[(mandelFinal 2 2 (2 * 2) mi).iteration]
      (0, 0)) := by
  have horb0 : ∀ m, orbit (0, 0) (0, 0) m = ((0 : ℚ), (0 : ℚ)) := by
    intro m
    induction m with
    | zero => rfl
    | succ m ih => rw [orbit_succ, ih]; norm_num [stepZ]
  have hnorm0 : ∀ m, normSq (orbit (0, 0) (0, 0) m) = 0 := by
    intro m
    rw [horb0 m]
    norm_num [normSq]
  have hr0 : (0 : ℚ) ≤ er * er := mul_self_nonneg er
  have part1 : (mandelFinal 0 0 (er * er) mi).iteration = mi := by
    obtain ⟨n, hn, he, ht, hesc⟩ := mandelFinal_spec 0 0 (er * er) mi
    rw [he]
    show n = mi
    by_contra hne
    have := hesc (by omega)
    rw [hnorm0 n] at this
    linarith
  have part2 : ∀ m, normSq ((stepZ ((0 : ℚ), (0 : ℚ)))^[m] (0, 0)) ≤ er * er := by
    intro m
    show normSq (orbit (0, 0) (0, 0) m) ≤ er * er
    rw [hnorm0 m]
    exact hr0
  have horb1 : orbit (2, 2) (0, 0) 1 = ((2 : ℚ), (2 : ℚ)) := by
    rw [show (1 : ℕ) = 0 + 1 from rfl, orbit_succ, orbit_zero]
    norm_num [stepZ]
  have hn1 : normSq (orbit (2, 2) (0, 0) 1) = 8 := by
    rw [horb1]
    norm_num [normSq]
  have hn0 : normSq (orbit (2, 2) (0, 0) 0) = 0 := by
    rw [orbit_zero]
    norm_num [normSq]
  obtain ⟨n, hn, he, ht, hesc⟩ := mandelFinal_spec 2 2 (2 * 2) mi
  have hne1 : n = 1 := by
    rcases Nat.lt_or_ge n 1 with h | h
    · have hn0' : n = 0 := by omega
      have := hesc (by omega)
      rw [hn0', hn0] at this
      linarith
    · rcases Nat.lt_or_ge n 2 with h2 | h2
      · omega
      · have := ht 1 (by omega)
        rw [hn1] at this
        linarith
  have part3 : (mandelFinal 2 2 (2 * 2) mi).iteration = 1 := by
    rw [he]
    exact hne1
  refine ⟨part1, part2, part3, ?_⟩
  rw [part3]
  show (2 * 2 : ℚ) < normSq (orbit (2, 2) (0, 0) 1)
  rw [hn1]
  norm_num

/-- C7 witness: the membership facts at max_iterations 1, escape_radius 2. -/
theorem C7_mandelbrot_membership_witness :
    (mandelFinal 0 0 (2 * 2) 1).iteration = 1 ∧
    (∀ m, normSq ((stepZ (0, 0))^[m] (0, 0)) ≤ 2 * 2) ∧
    (mandelFinal 2 2 (2 * 2) 1).iteration = 1 ∧
    2 * 2 < normSq ((stepZ (2, 2))^[(mandelFinal 2 2 (2 * 2) 1).iteration]
      (0, 0)) :=
  C7_mandelbrot_membership 1 2 (le_refl 1) (by norm_num)

/-- C8: exactly the pixels whose loop exits before max_iterations — those
that escape within fewer than max_iterations steps — receive the
smooth-colouring correction `count + 1 - log10(log10(|z|²) / 2 / log10 2) /
log10 2` at the final iterate; all others keep the raw count, which then
equals max_iterations. -/
theorem C8_smooth_colouring (ops : FloatOps) (mi : ℕ) (er real imaginary : ℚ)
    (s : MandelState)
    (hs : s = mandelFinal real imaginary (er * er) mi) :
    mandelValue ops mi er real imaginary =
      (if s.iteration < mi then
        (s.iteration : ℚ) + 1 -
          ops.log10 (ops.log10 (s.x * s.x + s.y * s.y) / 2 / ops.log10 2) /
            ops.log10 2
      else (mi : ℚ)) ∧
    (s.iteration < mi ↔
      ∃ m, m < mi ∧ er * er < normSq ((stepZ (real, imaginary))^[m] (0, 0))) := by
  obtain ⟨n, hn, he, ht, hesc⟩ := mandelFinal_spec real imaginary (er * er) mi
  subst hs
  simp only [mandelValue]
  rw [he]
  simp only [mstate]
  constructor
  · by_cases hlt : n < mi
    · rw [if_pos (by exact_mod_cast hlt), if_pos hlt]
    · rw [if_neg (fun hc => hlt (by exact_mod_cast hc)), if_neg hlt]
      have hnm : n = mi := by omega
      rw [hnm]
  · constructor
    · intro hlt
      exact ⟨n, hlt, hesc hlt⟩
    · rintro ⟨m, hm, hgt⟩
      by_contra hnl
      have := ht m (by omega)
      exact absurd hgt (not_lt.mpr this)

/-- C8 witness: at c = (3, 0), escape_radius 2, max_iterations 2 the point
escapes after 1 iteration (final state (3, 0, 9, 0, 1)) and receives the
logarithmic correction. -/
theorem C8_smooth_colouring_witness :
    mandelValue ops₀ 2 2 3 0 =
      (if (⟨3, 0, 9, 0, 1⟩ : MandelState).iteration < 2 then
        ((⟨3, 0, 9, 0, 1⟩ : MandelState).iteration : ℚ) + 1 -
          ops₀.log10 (ops₀.log10
            ((⟨3, 0, 9, 0, 1⟩ : MandelState).x * (⟨3, 0, 9, 0, 1⟩ : MandelState).x +
              (⟨3, 0, 9, 0, 1⟩ : MandelState).y * (⟨3, 0, 9, 0, 1⟩ : MandelState).y) /
            2 / ops₀.log10 2) / ops₀.log10 2
      else ((2 : ℕ) : ℚ)) ∧
    ((⟨3, 0, 9, 0, 1⟩ : MandelState).iteration < 2 ↔
      ∃ m, m < 2 ∧ 2 * 2 < normSq ((stepZ (3, 0))^[m] (0, 0))) :=
  C8_smooth_colouring ops₀ 2 2 3 0 ⟨3, 0, 9, 0, 1⟩
    (by norm_num [mandelFinal, mandelSteps])

end FractalViz
